import Mathlib

/-!
# Verification of the `simple-error` template-placeholder parser

Shallow embedding of `parse_internal` from `src/simple-error/src/lib.rs`
(lines 53-126).  The Rust function is a single left-to-right scan over the
characters of the format string, with a nested loop for the inside of a
placeholder and a peeking loop for the trait text after `:`.  We embed it as
a character-driven state machine: the scanner state `St` carries the mode
(top level / just saw `{` / inside the field portion / inside the trait
portion), the implicit-index counter `index_for_unnamed`, the output buffer
`fmt_string` and the catalogue `used_identifiers`; one Rust loop iteration
that consumes one character corresponds to one application of `step`, and
the whole scan is `List.foldl step`.

* `BTreeMap<String, Option<String>>` is embedded as an association list
  sorted strictly by key (`catInsert` keeps it sorted and overwrites the
  value of an existing key, exactly like `BTreeMap::insert`).
* `field.parse::<u8>()` / `field.parse::<usize>()` are embedded by
  `parsesU8` / `parsesUsize`: an optional leading `+`, then a nonempty
  run of ASCII digits whose decimal value fits the target type (`usize` is
  64 bits on the host).  Rust checks overflow step by step, but the value
  of every proper prefix of a digit string is at most the value of the
  whole string, so checking the final value is equivalent.
* `format!("__{}", index)` on the `i32` counter is embedded by `intRepr`,
  a plain decimal formatter.
-/

set_option maxHeartbeats 1000000

/-- The decimal digit character of `n % 10`. -/
def decChar (n : Nat) : Char :=
  match n % 10 with
  | 0 => '0'
  | 1 => '1'
  | 2 => '2'
  | 3 => '3'
  | 4 => '4'
  | 5 => '5'
  | 6 => '6'
  | 7 => '7'
  | 8 => '8'
  | _ => '9'

/-- Decimal digits of `n`, most significant first, computed with explicit
fuel (any fuel at least `n` is enough; we always call it with fuel `n`). -/
def natDigitsAux : Nat → Nat → List Char
  | 0, _ => []
  | fuel + 1, n => if n = 0 then [] else natDigitsAux fuel (n / 10) ++ [decChar n]

/-- Decimal representation of a natural number. -/
def natRepr (n : Nat) : String :=
  if n = 0 then "0" else ⟨natDigitsAux n n⟩

/-- Decimal representation of an integer, as Rust's `format!("{}", i)`
prints an `i32`. -/
def intRepr (i : Int) : String :=
  if i < 0 then "-" ++ natRepr (-i).toNat else natRepr i.toNat

/-- Strip one leading `+`, as Rust's unsigned `str::parse` accepts. -/
def stripPlus : List Char → List Char
  | [] => []
  | c :: r => if c = '+' then r else c :: r

/-- Decimal value of a digit list. -/
def digitsVal (l : List Char) : Nat :=
  l.foldl (fun a c => a * 10 + (c.toNat - 48)) 0

/-- Model of Rust `s.parse::<uN>().is_ok()` for an unsigned integer type
with maximum value `bound`: an optional leading `+`, then a nonempty run of
ASCII digits, whose value does not overflow the type. -/
def parsesNatUpTo (bound : Nat) (s : String) : Bool :=
  let l := stripPlus s.data
  !l.isEmpty && l.all Char.isDigit && decide (digitsVal l ≤ bound)

/-- Rust `field.parse::<u8>().is_ok()` (line 107 of the source). -/
def parsesU8 (s : String) : Bool := parsesNatUpTo 255 s

/-- Rust `field.parse::<usize>().is_ok()` (line 83 of the source), with
64-bit `usize`. -/
def parsesUsize (s : String) : Bool := parsesNatUpTo (2 ^ 64 - 1) s

/-- The catalogue `used_identifiers : BTreeMap<String, Option<String>>`,
embedded as an association list sorted strictly by key. -/
abbrev Catalogue := List (String × Option String)

/-- Lexicographic strict order on character lists by scalar value.  Rust's
`Ord for String` compares UTF-8 bytes lexicographically, which orders
strings exactly as their scalar-value sequences do. -/
def strLt : List Char → List Char → Bool
  | [], [] => false
  | [], _ :: _ => true
  | _ :: _, [] => false
  | a :: as, b :: bs =>
    if a.toNat < b.toNat then true
    else if b.toNat < a.toNat then false
    else strLt as bs

/-- `BTreeMap::insert`: insert at the sorted position, overwriting the
value stored for an existing key. -/
def catInsert : Catalogue → String → Option String → Catalogue
  | [], k, v => [(k, v)]
  | (k', v') :: rest, k, v =>
    if strLt k.data k'.data then (k, v) :: (k', v') :: rest
    else if k = k' then (k, v) :: rest
    else (k', v') :: catInsert rest k v

/-- Scanner mode: where in the Rust control flow the scan currently is.

* `top`      - at the top of the outer `while let Some(c) = chars.next()` loop;
* `sawBrace` - a `{` was consumed and the escape peek `chars.peek()` is pending;
* `inField`  - inside the inner loop, accumulating `field` (with the local
  `traits` value carried along, as in the Rust scope);
* `inTrait`  - inside the trait-collection loop after a `:`. -/
inductive Mode where
  | top : Mode
  | sawBrace : Mode
  | inField : String → Option String → Mode
  | inTrait : String → Option String → Mode
  deriving DecidableEq, Repr

/-- Full scanner state: mode plus the Rust locals `index_for_unnamed`,
`fmt_string` and `used_identifiers`. -/
structure St where
  mode : Mode
  idx : Int
  out : String
  cat : Catalogue
  deriving DecidableEq, Repr

/-- The text appended after the field name when the placeholder is emitted:
`traits.as_ref().map(|c| format!(":{c}")).unwrap_or_default()` (line 114). -/
def trSuffix : Option String → String
  | none => ""
  | some t => ":" ++ t

/-- The `c == '}'` branch of the inner loop (lines 100-119): fill an empty
field with the next implicit index, rewrite a field parsing as `u8` with the
`__` prefix, append the normalized placeholder to the output and record it
in the catalogue. -/
def closePh (st : St) (f : String) (tr : Option String) : St :=
  let p := if f = "" then (st.idx + 1, "__" ++ intRepr (st.idx + 1)) else (st.idx, f)
  let f2 := if parsesU8 p.2 then "__" ++ p.2 else p.2
  { mode := .top, idx := p.1,
    out := st.out ++ "\x7b" ++ f2 ++ trSuffix tr ++ "\x7d",
    cat := catInsert st.cat f2 tr }

/-- The `c == ':'` branch of the inner loop (lines 75-98), up to entering
the trait-collection loop: fill an empty field with the next implicit index,
rewrite a field parsing as `usize` with the `__` prefix. -/
def colonPh (st : St) (f : String) (tr : Option String) : St :=
  let p := if f = "" then (st.idx + 1, "__" ++ intRepr (st.idx + 1)) else (st.idx, f)
  let f2 := if parsesUsize p.2 then "__" ++ p.2 else p.2
  { mode := .inTrait f2 tr, idx := p.1, out := st.out, cat := st.cat }

/-- One consumed character of the Rust scan. -/
def step (st : St) (c : Char) : St :=
  match st.mode with
  | .top =>
    if c = '{' then { st with mode := .sawBrace }
    else { st with out := st.out.push c }
  | .sawBrace =>
    if c = '{' then { st with mode := .top, out := st.out ++ "\x7b\x7b" }
    else if c = ':' then colonPh st "" none
    else if c = '}' then closePh st "" none
    else { st with mode := .inField (String.singleton c) none }
  | .inField f tr =>
    if c = ':' then colonPh st f tr
    else if c = '}' then closePh st f tr
    else { st with mode := .inField (f.push c) tr }
  | .inTrait f tr =>
    if c = '}' then closePh st f tr
    else { st with mode := .inTrait f (some ((tr.getD "").push c)) }

/-- Run the scan over a character list. -/
def scanM (l : List Char) (st : St) : St := l.foldl step st

/-- The scanner state at the top of `parse_internal`: top level, counter
`index_for_unnamed = -1`, empty output, empty catalogue. -/
def initSt : St := { mode := .top, idx := -1, out := "", cat := [] }

/-- Shallow embedding of `parse_internal` (lines 53-126 of
`src/simple-error/src/lib.rs`): scan the whole string and return the
rewritten format string together with the used-identifier catalogue
(anything still pending in a non-`top` mode is dropped, as when the Rust
iterator is exhausted inside the inner loops). -/
def parse_internal (s : String) : String × Catalogue :=
  let st := scanM s.data initSt
  (st.out, st.cat)

/-- The scanner is inside a placeholder (one of the Rust inner loops). -/
def InnerMode : Mode → Prop
  | .inField _ _ => True
  | .inTrait _ _ => True
  | _ => False

/-- Shape of a field accumulated by the scanner: nonempty, not starting
with `{`, free of `:` and `}`. -/
def GoodField (f : String) : Prop :=
  f.data ≠ [] ∧ f.data.head? ≠ some '{' ∧ ':' ∉ f.data ∧ '}' ∉ f.data

/-- Shape of a pending trait accumulator: absent, or nonempty and free of
`}` (the collection loop stops at the first `}`). -/
def TrInv : Option String → Prop
  | none => True
  | some t => t.data ≠ [] ∧ '}' ∉ t.data

/-- Invariant on the scanner mode: the data carried inside a placeholder
has the shape the scanner can actually produce. -/
def ModeInv : Mode → Prop
  | .top => True
  | .sawBrace => True
  | .inField f tr => GoodField f ∧ tr = none
  | .inTrait f tr => GoodField f ∧ parsesUsize f = false ∧ TrInv tr

/-- Replay invariant: re-scanning the output produced so far reproduces
exactly this output and catalogue, ending at top level with the counter
still at `-1` (rewritten placeholders never consume implicit indices). -/
def Replay (st : St) : Prop :=
  scanM st.out.data initSt = ⟨.top, -1, st.out, st.cat⟩ ∧ ModeInv st.mode

/-- The catalogue is strictly sorted by key (the `BTreeMap` shape). -/
def SortedCat (m : Catalogue) : Prop :=
  List.Pairwise (fun a b => strLt a.1.data b.1.data = true) m

/-! ## Basic scan lemmas -/

theorem scanM_nil (st : St) : scanM [] st = st := rfl

theorem scanM_cons (c : Char) (l : List Char) (st : St) :
    scanM (c :: l) st = scanM l (step st c) := rfl

theorem scanM_append (p q : List Char) (st : St) :
    scanM (p ++ q) st = scanM q (scanM p st) :=
  List.foldl_append step st p q

theorem data_mk (l : List Char) : (⟨l⟩ : String).data = l := rfl

theorem eq_empty_iff_data (s : String) : s = "" ↔ s.data = [] := by
  constructor
  · rintro rfl; rfl
  · intro h; apply String.ext; simpa using h

theorem mk_ne_empty {l : List Char} (h : l ≠ []) : (⟨l⟩ : String) ≠ "" := by
  intro he
  exact h ((eq_empty_iff_data ⟨l⟩).mp he)

/-! ## Characters of formatted integers -/

theorem decChar_isDigit (n : Nat) : (decChar n).isDigit = true := by
  unfold decChar; split <;> decide

theorem natDigitsAux_digits (fuel : Nat) :
    ∀ n, ∀ c ∈ natDigitsAux fuel n, c.isDigit = true := by
  induction fuel with
  | zero => intro n c hc; simp [natDigitsAux] at hc
  | succ fuel ih =>
    intro n c hc
    simp only [natDigitsAux] at hc
    split at hc
    · simp at hc
    · rcases List.mem_append.mp hc with h | h
      · exact ih _ c h
      · rw [List.mem_singleton] at h; subst h; exact decChar_isDigit n

theorem natRepr_digits (n : Nat) : ∀ c ∈ (natRepr n).data, c.isDigit = true := by
  unfold natRepr
  split
  · intro c hc
    have h0 : ("0" : String).data = ['0'] := rfl
    rw [h0, List.mem_singleton] at hc; subst hc; decide
  · intro c hc
    rw [data_mk] at hc
    exact natDigitsAux_digits n n c hc

theorem intRepr_chars (i : Int) : ∀ c ∈ (intRepr i).data, c = '-' ∨ c.isDigit = true := by
  unfold intRepr
  split
  · intro c hc
    rw [String.data_append] at hc
    rcases List.mem_append.mp hc with h | h
    · left
      have hm : ("-" : String).data = ['-'] := rfl
      rw [hm, List.mem_singleton] at h; exact h
    · right; exact natRepr_digits _ c h
  · intro c hc
    right; exact natRepr_digits _ c hc

theorem intRepr_not_special (i : Int) :
    ∀ c ∈ (intRepr i).data, c ≠ '{' ∧ c ≠ ':' ∧ c ≠ '}' := by
  intro c hc
  rcases intRepr_chars i c hc with h | h
  · subst h; decide
  · refine ⟨?_, ?_, ?_⟩ <;> rintro rfl <;> exact absurd h (by decide)

/-! ## Parse-check lemmas -/

theorem parses_underscore (b : Nat) (s : String) :
    parsesNatUpTo b ("__" ++ s) = false := by
  have hd : ("__" ++ s).data = '_' :: '_' :: s.data := by
    simp [String.data_append]
  simp [parsesNatUpTo, hd, stripPlus]

theorem parsesU8_underscore (s : String) : parsesU8 ("__" ++ s) = false :=
  parses_underscore 255 s

theorem parsesUsize_underscore (s : String) : parsesUsize ("__" ++ s) = false :=
  parses_underscore (2 ^ 64 - 1) s

theorem parsesU8_imp_usize {s : String} (h : parsesU8 s = true) :
    parsesUsize s = true := by
  unfold parsesU8 parsesNatUpTo at h
  unfold parsesUsize parsesNatUpTo
  simp only [Bool.and_eq_true, decide_eq_true_eq] at h ⊢
  exact ⟨h.1, le_trans h.2 (by norm_num)⟩

theorem parsesUsize_false_imp_u8 {s : String} (h : parsesUsize s = false) :
    parsesU8 s = false := by
  cases hu : parsesU8 s with
  | false => rfl
  | true => rw [parsesU8_imp_usize hu] at h; exact absurd h (by simp)

theorem underscore_ne_empty (s : String) : ("__" ++ s) ≠ "" := by
  intro h
  rw [eq_empty_iff_data] at h
  rw [String.data_append] at h
  exact absurd (List.append_eq_nil.mp h).1 (by decide)

/-! ## Evaluating the placeholder-closing and colon branches -/

theorem closePh_nonempty (st : St) {f : String} (hf : f ≠ "")
    (hu8 : parsesU8 f = false) (tr : Option String) :
    closePh st f tr =
      ⟨.top, st.idx, st.out ++ "\x7b" ++ f ++ trSuffix tr ++ "\x7d",
        catInsert st.cat f tr⟩ := by
  simp [closePh, hf, hu8]

theorem closePh_u8 (st : St) {f : String} (hf : f ≠ "")
    (hu8 : parsesU8 f = true) (tr : Option String) :
    closePh st f tr =
      ⟨.top, st.idx, st.out ++ "\x7b" ++ ("__" ++ f) ++ trSuffix tr ++ "\x7d",
        catInsert st.cat ("__" ++ f) tr⟩ := by
  simp [closePh, hf, hu8]

theorem closePh_empty (st : St) (tr : Option String) :
    closePh st "" tr =
      ⟨.top, st.idx + 1,
        st.out ++ "\x7b" ++ ("__" ++ intRepr (st.idx + 1)) ++ trSuffix tr ++ "\x7d",
        catInsert st.cat ("__" ++ intRepr (st.idx + 1)) tr⟩ := by
  simp [closePh, parsesU8_underscore]

theorem colonPh_nonempty (st : St) {f : String} (hf : f ≠ "")
    (hu : parsesUsize f = false) (tr : Option String) :
    colonPh st f tr = ⟨.inTrait f tr, st.idx, st.out, st.cat⟩ := by
  simp [colonPh, hf, hu]

theorem colonPh_usize (st : St) {f : String} (hf : f ≠ "")
    (hu : parsesUsize f = true) (tr : Option String) :
    colonPh st f tr = ⟨.inTrait ("__" ++ f) tr, st.idx, st.out, st.cat⟩ := by
  simp [colonPh, hf, hu]

theorem colonPh_empty (st : St) (tr : Option String) :
    colonPh st "" tr =
      ⟨.inTrait ("__" ++ intRepr (st.idx + 1)) tr, st.idx + 1, st.out, st.cat⟩ := by
  simp [colonPh, parsesUsize_underscore]

/-! ## Step lemmas -/

theorem step_top_brace (i : Int) (o : String) (m : Catalogue) :
    step ⟨.top, i, o, m⟩ '{' = ⟨.sawBrace, i, o, m⟩ := rfl

theorem step_top_lit {c : Char} (h : c ≠ '{') (i : Int) (o : String) (m : Catalogue) :
    step ⟨.top, i, o, m⟩ c = ⟨.top, i, o.push c, m⟩ := by
  simp [step, h]

theorem step_saw_brace (i : Int) (o : String) (m : Catalogue) :
    step ⟨.sawBrace, i, o, m⟩ '{' = ⟨.top, i, o ++ "\x7b\x7b", m⟩ := rfl

theorem step_saw_colon (i : Int) (o : String) (m : Catalogue) :
    step ⟨.sawBrace, i, o, m⟩ ':' = colonPh ⟨.sawBrace, i, o, m⟩ "" none := rfl

theorem step_saw_close (i : Int) (o : String) (m : Catalogue) :
    step ⟨.sawBrace, i, o, m⟩ '}' = closePh ⟨.sawBrace, i, o, m⟩ "" none := rfl

theorem step_saw_other {c : Char} (h1 : c ≠ '{') (h2 : c ≠ ':') (h3 : c ≠ '}')
    (i : Int) (o : String) (m : Catalogue) :
    step ⟨.sawBrace, i, o, m⟩ c = ⟨.inField ⟨[c]⟩ none, i, o, m⟩ := by
  simp [step, h1, h2, h3]
  rfl

theorem step_field_colon (f : String) (tr : Option String) (i : Int) (o : String)
    (m : Catalogue) :
    step ⟨.inField f tr, i, o, m⟩ ':' = colonPh ⟨.inField f tr, i, o, m⟩ f tr := rfl

theorem step_field_close (f : String) (tr : Option String) (i : Int) (o : String)
    (m : Catalogue) :
    step ⟨.inField f tr, i, o, m⟩ '}' = closePh ⟨.inField f tr, i, o, m⟩ f tr := rfl

theorem step_field_other {c : Char} (h2 : c ≠ ':') (h3 : c ≠ '}') (f : List Char)
    (tr : Option String) (i : Int) (o : String) (m : Catalogue) :
    step ⟨.inField ⟨f⟩ tr, i, o, m⟩ c = ⟨.inField ⟨f ++ [c]⟩ tr, i, o, m⟩ := by
  simp [step, h2, h3]
  rfl

theorem step_trait_close (f : String) (tr : Option String) (i : Int) (o : String)
    (m : Catalogue) :
    step ⟨.inTrait f tr, i, o, m⟩ '}' = closePh ⟨.inTrait f tr, i, o, m⟩ f tr := rfl

theorem step_trait_other {c : Char} (h3 : c ≠ '}') (f : String) (tr : Option String)
    (i : Int) (o : String) (m : Catalogue) :
    step ⟨.inTrait f tr, i, o, m⟩ c =
      ⟨.inTrait f (some ((tr.getD "").push c)), i, o, m⟩ := by
  simp [step, h3]

/-! ## Scanning whole placeholders -/

theorem scan_field_accum (cs : List Char) (h : ∀ c ∈ cs, c ≠ ':' ∧ c ≠ '}')
    (f : List Char) (tr : Option String) (i : Int) (o : String) (m : Catalogue) :
    scanM cs ⟨.inField ⟨f⟩ tr, i, o, m⟩ = ⟨.inField ⟨f ++ cs⟩ tr, i, o, m⟩ := by
  induction cs generalizing f with
  | nil => simp [scanM_nil]
  | cons c cs ih =>
    obtain ⟨h1, h2⟩ := h c (List.mem_cons_self c cs)
    rw [scanM_cons, step_field_other h1 h2,
      ih (fun d hd => h d (List.mem_cons_of_mem c hd))]
    simp

theorem scan_trait_accum (ts : List Char) (h : ∀ c ∈ ts, c ≠ '}')
    (f : String) (a : List Char) (i : Int) (o : String) (m : Catalogue) :
    scanM ts ⟨.inTrait f (some ⟨a⟩), i, o, m⟩ =
      ⟨.inTrait f (some ⟨a ++ ts⟩), i, o, m⟩ := by
  induction ts generalizing a with
  | nil => simp [scanM_nil]
  | cons c ts ih =>
    rw [scanM_cons, step_trait_other (h c (List.mem_cons_self c ts))]
    have hg : (Option.getD (some (⟨a⟩ : String)) "").push c = (⟨a ++ [c]⟩ : String) := rfl
    rw [hg, ih (fun d hd => h d (List.mem_cons_of_mem c hd))]
    simp

theorem scan_trait_accum_none (ts : List Char) (h : ∀ c ∈ ts, c ≠ '}') (hne : ts ≠ [])
    (f : String) (i : Int) (o : String) (m : Catalogue) :
    scanM ts ⟨.inTrait f none, i, o, m⟩ = ⟨.inTrait f (some ⟨ts⟩), i, o, m⟩ := by
  cases ts with
  | nil => exact absurd rfl hne
  | cons c ts =>
    rw [scanM_cons, step_trait_other (h c (List.mem_cons_self c ts))]
    have hg : (Option.getD (none : Option String) "").push c = (⟨[c]⟩ : String) := rfl
    rw [hg, scan_trait_accum ts (fun d hd => h d (List.mem_cons_of_mem c hd)) f [c]]
    simp

theorem append_empty_str (s : String) : s ++ "" = s := by
  apply String.ext
  simp [String.data_append]

theorem step_field_push {c : Char} (h2 : c ≠ ':') (h3 : c ≠ '}') (f : String)
    (tr : Option String) (i : Int) (o : String) (m : Catalogue) :
    step ⟨.inField f tr, i, o, m⟩ c = ⟨.inField (f.push c) tr, i, o, m⟩ := by
  simp [step, h2, h3]

theorem colonPh_shape (st : St) (f : String) (tr : Option String) :
    ∃ f2 i2, colonPh st f tr = ⟨.inTrait f2 tr, i2, st.out, st.cat⟩ :=
  ⟨_, _, rfl⟩

theorem scan_placeholder (cs : List Char) (hne : cs ≠ [])
    (hhead : cs.head? ≠ some '{') (h : ∀ c ∈ cs, c ≠ ':' ∧ c ≠ '}')
    (rest : List Char) (i : Int) (o : String) (m : Catalogue) :
    scanM ('{' :: (cs ++ '}' :: rest)) ⟨.top, i, o, m⟩ =
      scanM rest ⟨.top, i,
        o ++ "\x7b" ++ (if parsesU8 ⟨cs⟩ then "__" ++ ⟨cs⟩ else ⟨cs⟩) ++ "\x7d",
        catInsert m (if parsesU8 ⟨cs⟩ then "__" ++ ⟨cs⟩ else ⟨cs⟩) none⟩ := by
  cases cs with
  | nil => exact absurd rfl hne
  | cons c cs' =>
    have hc : c ≠ '{' := by
      intro hcc; subst hcc; simp at hhead
    obtain ⟨hc1, hc2⟩ := h c (List.mem_cons_self c cs')
    have hlist : ('{' :: ((c :: cs') ++ '}' :: rest)) = '{' :: c :: (cs' ++ '}' :: rest) := by
      simp
    rw [hlist, scanM_cons, step_top_brace, scanM_cons, step_saw_other hc hc1 hc2,
      scanM_append, scan_field_accum cs' (fun d hd => h d (List.mem_cons_of_mem c hd)),
      scanM_cons]
    have hcons : ([c] ++ cs') = c :: cs' := by simp
    rw [hcons, step_field_close]
    have hfne : (⟨c :: cs'⟩ : String) ≠ "" := mk_ne_empty (by simp)
    by_cases hp : parsesU8 ⟨c :: cs'⟩ = true
    · rw [closePh_u8 _ hfne hp, hp]
      simp [trSuffix, append_empty_str]
    · rw [closePh_nonempty _ hfne (by simpa using hp)]
      simp only [hp]
      simp [trSuffix, append_empty_str]

theorem scan_implicit (rest : List Char) (i : Int) (o : String) (m : Catalogue) :
    scanM ('{' :: '}' :: rest) ⟨.top, i, o, m⟩ =
      scanM rest ⟨.top, i + 1,
        o ++ "\x7b" ++ ("__" ++ intRepr (i + 1)) ++ "\x7d",
        catInsert m ("__" ++ intRepr (i + 1)) none⟩ := by
  rw [scanM_cons, step_top_brace, scanM_cons, step_saw_close, closePh_empty]
  simp [trSuffix, append_empty_str]

theorem scan_implicit_trait (ts : List Char) (hts : ts ≠ []) (h : ∀ c ∈ ts, c ≠ '}')
    (rest : List Char) (i : Int) (o : String) (m : Catalogue) :
    scanM ('{' :: ':' :: (ts ++ '}' :: rest)) ⟨.top, i, o, m⟩ =
      scanM rest ⟨.top, i + 1,
        o ++ "\x7b" ++ ("__" ++ intRepr (i + 1)) ++ ":" ++ ⟨ts⟩ ++ "\x7d",
        catInsert m ("__" ++ intRepr (i + 1)) (some ⟨ts⟩)⟩ := by
  rw [scanM_cons, step_top_brace, scanM_cons, step_saw_colon, colonPh_empty,
    scanM_append, scan_trait_accum_none ts h hts, scanM_cons, step_trait_close,
    closePh_nonempty _ (underscore_ne_empty _) (parsesU8_underscore _)]
  simp [trSuffix, String.append_assoc]

theorem scan_placeholder_trait (cs ts : List Char) (hne : cs ≠ [])
    (hhead : cs.head? ≠ some '{') (h : ∀ c ∈ cs, c ≠ ':' ∧ c ≠ '}')
    (hts : ts ≠ []) (h2 : ∀ c ∈ ts, c ≠ '}')
    (rest : List Char) (i : Int) (o : String) (m : Catalogue) :
    scanM ('{' :: (cs ++ ':' :: (ts ++ '}' :: rest))) ⟨.top, i, o, m⟩ =
      scanM rest ⟨.top, i,
        o ++ "\x7b" ++ (if parsesUsize ⟨cs⟩ then "__" ++ ⟨cs⟩ else ⟨cs⟩) ++ ":" ++ ⟨ts⟩ ++ "\x7d",
        catInsert m (if parsesUsize ⟨cs⟩ then "__" ++ ⟨cs⟩ else ⟨cs⟩) (some ⟨ts⟩)⟩ := by
  cases cs with
  | nil => exact absurd rfl hne
  | cons c cs' =>
    have hc : c ≠ '{' := by
      intro hcc; subst hcc; simp at hhead
    obtain ⟨hc1, hc2⟩ := h c (List.mem_cons_self c cs')
    have hlist : ('{' :: ((c :: cs') ++ ':' :: (ts ++ '}' :: rest))) =
        '{' :: c :: (cs' ++ ':' :: (ts ++ '}' :: rest)) := by
      simp
    rw [hlist, scanM_cons, step_top_brace, scanM_cons, step_saw_other hc hc1 hc2,
      scanM_append, scan_field_accum cs' (fun d hd => h d (List.mem_cons_of_mem c hd)),
      scanM_cons]
    have hcons : ([c] ++ cs') = c :: cs' := by simp
    rw [hcons, step_field_colon]
    have hfne : (⟨c :: cs'⟩ : String) ≠ "" := mk_ne_empty (by simp)
    have hrest :
        ∀ (F : String), F ≠ "" → parsesU8 F = false →
          scanM (ts ++ '}' :: rest) ⟨.inTrait F (none : Option String), i, o, m⟩ =
            scanM rest ⟨.top, i, o ++ "\x7b" ++ F ++ ":" ++ (⟨ts⟩ : String) ++ "\x7d",
              catInsert m F (some ⟨ts⟩)⟩ := by
      intro F hFe hF
      rw [scanM_append, scan_trait_accum_none ts h2 hts, scanM_cons, step_trait_close,
        closePh_nonempty _ hFe hF]
      simp [trSuffix, String.append_assoc]
    by_cases hp : parsesUsize ⟨c :: cs'⟩ = true
    · rw [colonPh_usize _ hfne hp,
        hrest _ (underscore_ne_empty _) (parsesU8_underscore _), hp]
      simp
    · rw [colonPh_nonempty _ hfne (by simpa using hp),
        hrest _ hfne (parsesUsize_false_imp_u8 (by simpa using hp))]
      simp only [hp]
      simp

theorem scan_inner_no_emit (l : List Char) (h : '}' ∉ l) :
    ∀ (md : Mode), InnerMode md → ∀ (i : Int) (o : String) (m : Catalogue),
      (scanM l ⟨md, i, o, m⟩).out = o ∧ (scanM l ⟨md, i, o, m⟩).cat = m ∧
        InnerMode (scanM l ⟨md, i, o, m⟩).mode := by
  induction l with
  | nil => intro md hmd i o m; exact ⟨rfl, rfl, hmd⟩
  | cons c l ih =>
    intro md hmd i o m
    have hc : c ≠ '}' := fun hcc => h (hcc ▸ List.mem_cons_self c l)
    have hmem : '}' ∉ l := fun hl => h (List.mem_cons_of_mem c hl)
    cases md with
    | top => exact absurd hmd (by simp [InnerMode])
    | sawBrace => exact absurd hmd (by simp [InnerMode])
    | inField f tr =>
      by_cases hcol : c = ':'
      · subst hcol
        rw [scanM_cons, step_field_colon]
        obtain ⟨f2, i2, hcp⟩ := colonPh_shape ⟨.inField f tr, i, o, m⟩ f tr
        rw [hcp]
        exact ih hmem (.inTrait f2 tr) trivial i2 o m
      · rw [scanM_cons, step_field_push hcol hc]
        exact ih hmem (.inField (f.push c) tr) trivial i o m
    | inTrait f tr =>
      rw [scanM_cons, step_trait_other hc]
      exact ih hmem (.inTrait f (some ((tr.getD "").push c))) trivial i o m

theorem scan_unterminated (r : List Char) (h1 : r.head? ≠ some '{') (h2 : '}' ∉ r)
    (i : Int) (o : String) (m : Catalogue) :
    (scanM ('{' :: r) ⟨.top, i, o, m⟩).out = o ∧
      (scanM ('{' :: r) ⟨.top, i, o, m⟩).cat = m := by
  rw [scanM_cons, step_top_brace]
  cases r with
  | nil => exact ⟨rfl, rfl⟩
  | cons c r' =>
    have hc : c ≠ '{' := by intro hcc; subst hcc; simp at h1
    have hcr : c ≠ '}' := fun hcc => h2 (hcc ▸ List.mem_cons_self c r')
    have hr' : '}' ∉ r' := fun hl => h2 (List.mem_cons_of_mem c hl)
    by_cases hcol : c = ':'
    · subst hcol
      rw [scanM_cons, step_saw_colon]
      obtain ⟨f2, i2, hcp⟩ := colonPh_shape ⟨.sawBrace, i, o, m⟩ "" none
      rw [hcp]
      obtain ⟨ha, hb, _⟩ := scan_inner_no_emit r' hr' (.inTrait f2 none) trivial i2 o m
      exact ⟨ha, hb⟩
    · rw [scanM_cons, step_saw_other hc hcol hcr]
      obtain ⟨ha, hb, _⟩ := scan_inner_no_emit r' hr' (.inField ⟨[c]⟩ none) trivial i o m
      exact ⟨ha, hb⟩

theorem parse_internal_eq (s : String) :
    parse_internal s = ((scanM s.data initSt).out, (scanM s.data initSt).cat) := rfl

/-! ## Well-formedness of emitted fields -/

theorem underscore_data (s : String) : ("__" ++ s).data = '_' :: '_' :: s.data := by
  simp [String.data_append]

theorem head?_append_left {l : List Char} (h : l ≠ []) (l2 : List Char) :
    (l ++ l2).head? = l.head? := by
  cases l with
  | nil => exact absurd rfl h
  | cons a t => simp

theorem goodField_underscore {s : String} (h3 : ':' ∉ s.data) (h4 : '}' ∉ s.data) :
    GoodField ("__" ++ s) := by
  refine ⟨?_, ?_, ?_, ?_⟩ <;> rw [underscore_data]
  · simp
  · simp
  · intro hm
    rcases List.mem_cons.mp hm with he | hm
    · exact absurd he (by decide)
    rcases List.mem_cons.mp hm with he | hm
    · exact absurd he (by decide)
    exact h3 hm
  · intro hm
    rcases List.mem_cons.mp hm with he | hm
    · exact absurd he (by decide)
    rcases List.mem_cons.mp hm with he | hm
    · exact absurd he (by decide)
    exact h4 hm

theorem goodField_underscore_intRepr (i : Int) : GoodField ("__" ++ intRepr i) := by
  apply goodField_underscore
  · intro hc
    exact absurd rfl (intRepr_not_special i ':' hc).2.1
  · intro hc
    exact absurd rfl (intRepr_not_special i '}' hc).2.2

theorem goodField_norm_u8 {f : String} (h : GoodField f) :
    GoodField (if parsesU8 f = true then "__" ++ f else f) ∧
      parsesU8 (if parsesU8 f = true then "__" ++ f else f) = false := by
  by_cases hp : parsesU8 f = true
  · simp only [if_pos hp]
    exact ⟨goodField_underscore h.2.2.1 h.2.2.2, parsesU8_underscore f⟩
  · simp only [if_neg hp]
    exact ⟨h, by simpa using hp⟩

theorem goodField_norm_usize {f : String} (h : GoodField f) :
    GoodField (if parsesUsize f = true then "__" ++ f else f) ∧
      parsesUsize (if parsesUsize f = true then "__" ++ f else f) = false := by
  by_cases hp : parsesUsize f = true
  · simp only [if_pos hp]
    exact ⟨goodField_underscore h.2.2.1 h.2.2.2, parsesUsize_underscore f⟩
  · simp only [if_neg hp]
    exact ⟨h, by simpa using hp⟩

theorem st_eq_of_out_data (md : Mode) (j : Int) (o1 o2 : String) (m : Catalogue)
    (h : o1.data = o2.data) : (⟨md, j, o1, m⟩ : St) = ⟨md, j, o2, m⟩ := by
  rw [String.ext h]

/-! ## Replaying emitted chunks -/

theorem replay_ph_none {F : String} (hF : GoodField F) (hu8 : parsesU8 F = false)
    (j : Int) (o : String) (m : Catalogue) :
    scanM ('{' :: (F.data ++ ['}'])) ⟨.top, j, o, m⟩ =
      ⟨.top, j, o ++ "\x7b" ++ F ++ "\x7d", catInsert m F none⟩ := by
  obtain ⟨h1, h2, h3, h4⟩ := hF
  rw [scan_placeholder F.data h1 h2
    (fun c hc => ⟨fun he => h3 (he ▸ hc), fun he => h4 (he ▸ hc)⟩), scanM_nil]
  have heta : (⟨F.data⟩ : String) = F := rfl
  rw [heta, hu8]
  simp

theorem replay_ph_some {F t : String} (hF : GoodField F) (hus : parsesUsize F = false)
    (ht1 : t.data ≠ []) (ht2 : '}' ∉ t.data) (j : Int) (o : String) (m : Catalogue) :
    scanM ('{' :: (F.data ++ ':' :: (t.data ++ ['}']))) ⟨.top, j, o, m⟩ =
      ⟨.top, j, o ++ "\x7b" ++ F ++ ":" ++ t ++ "\x7d", catInsert m F (some t)⟩ := by
  obtain ⟨h1, h2, h3, h4⟩ := hF
  rw [scan_placeholder_trait F.data t.data h1 h2
    (fun c hc => ⟨fun he => h3 (he ▸ hc), fun he => h4 (he ▸ hc)⟩)
    ht1 (fun c hc he => ht2 (he ▸ hc)), scanM_nil]
  have heta : (⟨F.data⟩ : String) = F := rfl
  have heta2 : (⟨t.data⟩ : String) = t := rfl
  rw [heta, heta2, hus]
  simp

/-! ## The replay invariant is preserved -/

theorem replay_step (st : St) (c : Char) (h : Replay st) : Replay (step st c) := by
  obtain ⟨md, i, o, m⟩ := st
  obtain ⟨hrep, hmode⟩ := h
  cases md with
  | top =>
    by_cases hc : c = '{'
    · subst hc
      rw [step_top_brace]
      exact ⟨hrep, trivial⟩
    · rw [step_top_lit hc]
      refine ⟨?_, trivial⟩
      show scanM (o.push c).data initSt = ⟨.top, -1, o.push c, m⟩
      rw [String.data_push, scanM_append, hrep, scanM_cons, step_top_lit hc, scanM_nil]
  | sawBrace =>
    by_cases hc : c = '{'
    · subst hc
      rw [step_saw_brace]
      refine ⟨?_, trivial⟩
      show scanM (o ++ "\x7b\x7b").data initSt = ⟨.top, -1, o ++ "\x7b\x7b", m⟩
      rw [String.data_append, scanM_append, hrep]
      rfl
    · by_cases hcol : c = ':'
      · subst hcol
        rw [step_saw_colon, colonPh_empty]
        refine ⟨hrep, ?_⟩
        exact ⟨goodField_underscore_intRepr (i + 1), parsesUsize_underscore _, trivial⟩
      · by_cases hcl : c = '}'
        · subst hcl
          rw [step_saw_close, closePh_empty]
          refine ⟨?_, trivial⟩
          show scanM (o ++ "\x7b" ++ ("__" ++ intRepr (i + 1)) ++ trSuffix none ++ "\x7d").data
              initSt = ⟨.top, -1,
                o ++ "\x7b" ++ ("__" ++ intRepr (i + 1)) ++ trSuffix none ++ "\x7d",
                catInsert m ("__" ++ intRepr (i + 1)) none⟩
          have hd : (o ++ "\x7b" ++ ("__" ++ intRepr (i + 1)) ++ trSuffix none ++ "\x7d").data
              = o.data ++ ('{' :: (("__" ++ intRepr (i + 1)).data ++ ['}'])) := by
            simp [String.data_append, trSuffix]
          rw [hd, scanM_append, hrep,
            replay_ph_none (goodField_underscore_intRepr (i + 1)) (parsesU8_underscore _)]
          apply st_eq_of_out_data
          simp [String.data_append, trSuffix]
        · rw [step_saw_other hc hcol hcl]
          refine ⟨hrep, ?_, rfl⟩
          refine ⟨by simp, ?_, ?_, ?_⟩
          · intro he
            exact hc (Option.some.inj he)
          · intro hm
            rcases List.mem_cons.mp hm with he | hm
            · exact hcol he.symm
            · simp at hm
          · intro hm
            rcases List.mem_cons.mp hm with he | hm
            · exact hcl he.symm
            · simp at hm
  | inField f tr =>
    obtain ⟨hgf, htr⟩ := hmode
    subst htr
    have hfne : f ≠ "" := fun he => hgf.1 ((eq_empty_iff_data f).mp he)
    by_cases hcol : c = ':'
    · subst hcol
      rw [step_field_colon]
      obtain ⟨hg2, hp2⟩ := goodField_norm_usize hgf
      by_cases hp : parsesUsize f = true
      · rw [colonPh_usize _ hfne hp]
        refine ⟨hrep, ?_, ?_, trivial⟩
        · simpa [if_pos hp] using hg2
        · simpa [if_pos hp] using hp2
      · rw [colonPh_nonempty _ hfne (by simpa using hp)]
        refine ⟨hrep, ?_, ?_, trivial⟩
        · simpa [if_neg hp] using hg2
        · simpa [if_neg hp] using hp2
    · by_cases hcl : c = '}'
      · subst hcl
        rw [step_field_close]
        obtain ⟨hg2, hp2⟩ := goodField_norm_u8 hgf
        have key : ∀ F : String, GoodField F → parsesU8 F = false →
            Replay (⟨.top, i, o ++ "\x7b" ++ F ++ trSuffix none ++ "\x7d",
              catInsert m F none⟩ : St) := by
          intro F hgF hpF
          refine ⟨?_, trivial⟩
          show scanM (o ++ "\x7b" ++ F ++ trSuffix none ++ "\x7d").data initSt = _
          have hd : (o ++ "\x7b" ++ F ++ trSuffix none ++ "\x7d").data
              = o.data ++ ('{' :: (F.data ++ ['}'])) := by
            simp [String.data_append, trSuffix]
          rw [hd, scanM_append, hrep, replay_ph_none hgF hpF]
          apply st_eq_of_out_data
          simp [String.data_append, trSuffix]
        by_cases hp : parsesU8 f = true
        · rw [closePh_u8 _ hfne hp]
          have := key ("__" ++ f) (by simpa [if_pos hp] using hg2)
            (by simpa [if_pos hp] using hp2)
          exact this
        · rw [closePh_nonempty _ hfne (by simpa using hp)]
          exact key f (by simpa [if_neg hp] using hg2) (by simpa [if_neg hp] using hp2)
      · rw [step_field_push hcol hcl]
        refine ⟨hrep, ?_, rfl⟩
        obtain ⟨h1, h2, h3, h4⟩ := hgf
        refine ⟨?_, ?_, ?_, ?_⟩ <;> rw [String.data_push]
        · simp
        · rw [head?_append_left h1]
          exact h2
        · intro hm
          rcases List.mem_append.mp hm with hm | hm
          · exact h3 hm
          · exact hcol (List.mem_singleton.mp hm).symm
        · intro hm
          rcases List.mem_append.mp hm with hm | hm
          · exact h4 hm
          · exact hcl (List.mem_singleton.mp hm).symm
  | inTrait f tr =>
    obtain ⟨hgf, hus, htr⟩ := hmode
    have hfne : f ≠ "" := fun he => hgf.1 ((eq_empty_iff_data f).mp he)
    by_cases hcl : c = '}'
    · subst hcl
      rw [step_trait_close, closePh_nonempty _ hfne (parsesUsize_false_imp_u8 hus)]
      refine ⟨?_, trivial⟩
      show scanM (o ++ "\x7b" ++ f ++ trSuffix tr ++ "\x7d").data initSt = _
      cases tr with
      | none =>
        have hd : (o ++ "\x7b" ++ f ++ trSuffix none ++ "\x7d").data
            = o.data ++ ('{' :: (f.data ++ ['}'])) := by
          simp [String.data_append, trSuffix]
        rw [hd, scanM_append, hrep, replay_ph_none hgf (parsesUsize_false_imp_u8 hus)]
        apply st_eq_of_out_data
        simp [String.data_append, trSuffix]
      | some t =>
        obtain ⟨ht1, ht2⟩ := htr
        have hd : (o ++ "\x7b" ++ f ++ trSuffix (some t) ++ "\x7d").data
            = o.data ++ ('{' :: (f.data ++ ':' :: (t.data ++ ['}']))) := by
          simp [String.data_append, trSuffix]
        rw [hd, scanM_append, hrep, replay_ph_some hgf hus ht1 ht2]
        apply st_eq_of_out_data
        simp [String.data_append, trSuffix]
    · rw [step_trait_other hcl]
      refine ⟨hrep, hgf, hus, ?_⟩
      cases tr with
      | none =>
        have hpc : ((none : Option String).getD "").push c = (⟨[c]⟩ : String) := rfl
        rw [hpc]
        refine ⟨by simp, ?_⟩
        intro hm
        exact hcl (List.mem_singleton.mp hm).symm
      | some t =>
        obtain ⟨ht1, ht2⟩ := htr
        refine ⟨?_, ?_⟩ <;> rw [show (Option.getD (some t) "") = t from rfl, String.data_push]
        · simp
        · intro hm
          rcases List.mem_append.mp hm with hm | hm
          · exact ht2 hm
          · exact hcl (List.mem_singleton.mp hm).symm

theorem replay_scan (l : List Char) (st : St) (h : Replay st) : Replay (scanM l st) := by
  induction l generalizing st with
  | nil => exact h
  | cons c l ih =>
    rw [scanM_cons]
    exact ih (step st c) (replay_step st c h)

/-! ## The catalogue stays strictly sorted -/

theorem charToNat_inj (a b : Char) (h : a.toNat = b.toNat) : a = b :=
  Char.eq_of_val_eq (UInt32.ext h)

theorem strLt_irrefl (l : List Char) : strLt l l = false := by
  induction l with
  | nil => rfl
  | cons a as ih => simp [strLt, ih]

theorem strLt_trans : ∀ (a b c : List Char),
    strLt a b = true → strLt b c = true → strLt a c = true := by
  intro a
  induction a with
  | nil =>
    intro b c h1 h2
    cases b with
    | nil => exact absurd h1 (by simp [strLt])
    | cons y ys =>
      cases c with
      | nil => exact absurd h2 (by simp [strLt])
      | cons z zs => simp [strLt]
  | cons x xs ih =>
    intro b c h1 h2
    cases b with
    | nil => exact absurd h1 (by simp [strLt])
    | cons y ys =>
      cases c with
      | nil => exact absurd h2 (by simp [strLt])
      | cons z zs =>
        simp only [strLt] at h1 h2 ⊢
        split_ifs at h1 h2 ⊢ <;> first
          | rfl
          | omega
          | (exact ih ys zs h1 h2)

theorem strLt_total : ∀ (a b : List Char), a ≠ b →
    strLt a b = true ∨ strLt b a = true := by
  intro a
  induction a with
  | nil =>
    intro b hne
    cases b with
    | nil => exact absurd rfl hne
    | cons y ys => left; simp [strLt]
  | cons x xs ih =>
    intro b hne
    cases b with
    | nil => right; simp [strLt]
    | cons y ys =>
      by_cases hxy : x.toNat < y.toNat
      · left; simp [strLt, hxy]
      · by_cases hyx : y.toNat < x.toNat
        · right; simp [strLt, hyx]
        · have hxy' : x = y :=
            charToNat_inj x y (Nat.le_antisymm (Nat.not_lt.mp hyx) (Nat.not_lt.mp hxy))
          subst hxy'
          have hne' : xs ≠ ys := fun he => hne (by rw [he])
          rcases ih ys hne' with h | h
          · left; simp [strLt, h]
          · right; simp [strLt, h]

theorem catInsert_mem {k : String} {v : Option String} :
    ∀ (m : Catalogue), ∀ x ∈ catInsert m k v, x ∈ m ∨ x = (k, v) := by
  intro m
  induction m with
  | nil =>
    intro x hx
    simp [catInsert] at hx
    right
    exact hx
  | cons p rest ih =>
    intro x hx
    obtain ⟨k', v'⟩ := p
    simp only [catInsert] at hx
    split at hx
    · rcases List.mem_cons.mp hx with he | hx
      · right; exact he
      · left; exact hx
    · split at hx
      · rcases List.mem_cons.mp hx with he | hx
        · right; exact he
        · left; exact List.mem_cons_of_mem _ hx
      · rcases List.mem_cons.mp hx with he | hx
        · left; exact he ▸ List.mem_cons_self _ _
        · rcases ih x hx with hx | he
          · left; exact List.mem_cons_of_mem _ hx
          · right; exact he

theorem catInsert_sorted : ∀ (m : Catalogue), SortedCat m →
    ∀ (k : String) (v : Option String), SortedCat (catInsert m k v) := by
  intro m
  induction m with
  | nil =>
    intro _ k v
    simp [catInsert, SortedCat]
  | cons p rest ih =>
    intro hs k v
    obtain ⟨k', v'⟩ := p
    obtain ⟨hhead, hrest⟩ := List.pairwise_cons.mp hs
    simp only [catInsert]
    split
    · next hlt =>
      refine List.Pairwise.cons ?_ hs
      intro x hx
      rcases List.mem_cons.mp hx with he | hx
      · rw [he]
        exact hlt
      · exact strLt_trans _ _ _ hlt (hhead x hx)
    · split
      · next hnlt heq =>
        subst heq
        exact List.Pairwise.cons (fun x hx => hhead x hx) hrest
      · next hnlt hne =>
        refine List.Pairwise.cons ?_ (ih hrest k v)
        intro x hx
        rcases catInsert_mem rest x hx with hx | he
        · exact hhead x hx
        · rw [he]
          have hdne : k.data ≠ k'.data := fun hd => hne (String.ext hd)
          rcases strLt_total k.data k'.data hdne with h | h
          · exact absurd h hnlt
          · exact h

theorem step_cat_cases (st : St) (c : Char) :
    (step st c).cat = st.cat ∨ ∃ k v, (step st c).cat = catInsert st.cat k v := by
  obtain ⟨md, i, o, m⟩ := st
  cases md <;> simp only [step] <;> split_ifs <;>
    first
      | (left; rfl)
      | (right; exact ⟨_, _, rfl⟩)

theorem scan_sorted (l : List Char) (st : St) (h : SortedCat st.cat) :
    SortedCat (scanM l st).cat := by
  induction l generalizing st with
  | nil => exact h
  | cons c l ih =>
    rw [scanM_cons]
    apply ih
    rcases step_cat_cases st c with he | ⟨k, v, he⟩
    · rw [he]
      exact h
    · rw [he]
      exact catInsert_sorted st.cat h k v

theorem sorted_keys_nodup {m : Catalogue} (h : SortedCat m) :
    (m.map Prod.fst).Nodup := by
  apply List.pairwise_map.mpr
  apply h.imp
  intro a b hab he
  rw [he, strLt_irrefl] at hab
  exact absurd hab (by simp)

/-! ## Digit-only fields -/

theorem digit_not_special {c : Char} (h : c.isDigit = true) :
    c ≠ ':' ∧ c ≠ '}' ∧ c ≠ '{' := by
  refine ⟨?_, ?_, ?_⟩ <;> rintro rfl <;> exact absurd h (by decide)

theorem parses_digits (b : Nat) (d : List Char) (hne : d ≠ [])
    (hd : ∀ c ∈ d, c.isDigit = true) :
    parsesNatUpTo b ⟨d⟩ = decide (digitsVal d ≤ b) := by
  unfold parsesNatUpTo
  have hsp : stripPlus d = d := by
    cases d with
    | nil => rfl
    | cons c cr =>
      have hcp : c ≠ '+' := by
        intro he
        have hdig := hd c (List.mem_cons_self c cr)
        rw [he] at hdig
        exact absurd hdig (by decide)
      simp [stripPlus, hcp]
  rw [data_mk, hsp]
  have h1 : d.isEmpty = false := by
    cases d with
    | nil => exact absurd rfl hne
    | cons c cr => rfl
  have h2 : d.all Char.isDigit = true := List.all_eq_true.mpr hd
  simp [h1, h2]

theorem digits_head_ne {d : List Char} (hd : ∀ c ∈ d, c.isDigit = true) :
    d.head? ≠ some '{' := by
  cases d with
  | nil => simp
  | cons c cr =>
    intro he
    have := hd c (List.mem_cons_self c cr)
    rw [Option.some.inj he] at this
    exact absurd this (by decide)

/-! ## Claim theorems -/

/-- C1, counterexample: the claim says every digits-only placeholder is
rewritten with the synthetic `__` prefix so that the rewritten template
never contains a bare numeric placeholder.  On input `{256}` the code keeps
the bare numeric placeholder `{256}` (the no-trait path only rewrites
fields that parse as `u8`, and `256` does not), so the claim is false. -/
theorem c1_counterexample :
    (parse_internal "\x7b256\x7d").1 = "\x7b256\x7d" ∧
      (parse_internal "\x7b256\x7d").2 = [("256", none)] ∧
      (parse_internal "\x7b256\x7d").1 ≠ "\x7b__256\x7d" ∧
      (parse_internal "\x7b256\x7d").2 ≠ [("__256", none)] := by
  decide

/-- C1, amended: a digits-only field is rewritten with the synthetic `__`
prefix exactly when the digit string parses into the machine integer type
used on that path - `u8` (value at most 255) for a placeholder without a
trait, `usize` (64-bit, value at most `2 ^ 64 - 1`) for a placeholder with
a trait; a digits-only field beyond that bound is left unchanged, in both
the rewritten template and the catalogue key. -/
theorem c1_digits_rewrite :
    (∀ (d rest : List Char) (i : Int) (o : String) (m : Catalogue),
      d ≠ [] → (∀ c ∈ d, c.isDigit = true) → digitsVal d ≤ 255 →
        scanM ('{' :: (d ++ '}' :: rest)) ⟨.top, i, o, m⟩ =
          scanM rest ⟨.top, i, o ++ "\x7b" ++ ("__" ++ ⟨d⟩) ++ "\x7d",
            catInsert m ("__" ++ ⟨d⟩) none⟩) ∧
    (∀ (d rest : List Char) (i : Int) (o : String) (m : Catalogue),
      d ≠ [] → (∀ c ∈ d, c.isDigit = true) → 255 < digitsVal d →
        scanM ('{' :: (d ++ '}' :: rest)) ⟨.top, i, o, m⟩ =
          scanM rest ⟨.top, i, o ++ "\x7b" ++ (⟨d⟩ : String) ++ "\x7d",
            catInsert m ⟨d⟩ none⟩) ∧
    (∀ (d ts rest : List Char) (i : Int) (o : String) (m : Catalogue),
      d ≠ [] → (∀ c ∈ d, c.isDigit = true) → ts ≠ [] → (∀ c ∈ ts, c ≠ '}') →
      digitsVal d ≤ 2 ^ 64 - 1 →
        scanM ('{' :: (d ++ ':' :: (ts ++ '}' :: rest))) ⟨.top, i, o, m⟩ =
          scanM rest ⟨.top, i,
            o ++ "\x7b" ++ ("__" ++ ⟨d⟩) ++ ":" ++ ⟨ts⟩ ++ "\x7d",
            catInsert m ("__" ++ ⟨d⟩) (some ⟨ts⟩)⟩) ∧
    (∀ (d ts rest : List Char) (i : Int) (o : String) (m : Catalogue),
      d ≠ [] → (∀ c ∈ d, c.isDigit = true) → ts ≠ [] → (∀ c ∈ ts, c ≠ '}') →
      2 ^ 64 - 1 < digitsVal d →
        scanM ('{' :: (d ++ ':' :: (ts ++ '}' :: rest))) ⟨.top, i, o, m⟩ =
          scanM rest ⟨.top, i,
            o ++ "\x7b" ++ (⟨d⟩ : String) ++ ":" ++ ⟨ts⟩ ++ "\x7d",
            catInsert m ⟨d⟩ (some ⟨ts⟩)⟩) := by
  refine ⟨?_, ?_, ?_, ?_⟩
  · intro d rest i o m h1 h2 h3
    have hu8 : parsesU8 (⟨d⟩ : String) = true := by
      unfold parsesU8
      rw [parses_digits 255 d h1 h2]
      simpa using h3
    rw [scan_placeholder d h1 (digits_head_ne h2)
      (fun c hc => ⟨(digit_not_special (h2 c hc)).1, (digit_not_special (h2 c hc)).2.1⟩),
      hu8]
    simp
  · intro d rest i o m h1 h2 h3
    have hu8 : parsesU8 (⟨d⟩ : String) = false := by
      unfold parsesU8
      rw [parses_digits 255 d h1 h2]
      rw [decide_eq_false_iff_not]
      exact Nat.not_le.mpr h3
    rw [scan_placeholder d h1 (digits_head_ne h2)
      (fun c hc => ⟨(digit_not_special (h2 c hc)).1, (digit_not_special (h2 c hc)).2.1⟩),
      hu8]
    simp
  · intro d ts rest i o m h1 h2 ht1 ht2 h3
    have hus : parsesUsize (⟨d⟩ : String) = true := by
      unfold parsesUsize
      rw [parses_digits (2 ^ 64 - 1) d h1 h2]
      simpa using h3
    rw [scan_placeholder_trait d ts h1 (digits_head_ne h2)
      (fun c hc => ⟨(digit_not_special (h2 c hc)).1, (digit_not_special (h2 c hc)).2.1⟩)
      ht1 ht2, hus]
    simp
  · intro d ts rest i o m h1 h2 ht1 ht2 h3
    have hus : parsesUsize (⟨d⟩ : String) = false := by
      unfold parsesUsize
      rw [parses_digits (2 ^ 64 - 1) d h1 h2]
      rw [decide_eq_false_iff_not]
      exact Nat.not_le.mpr h3
    rw [scan_placeholder_trait d ts h1 (digits_head_ne h2)
      (fun c hc => ⟨(digit_not_special (h2 c hc)).1, (digit_not_special (h2 c hc)).2.1⟩)
      ht1 ht2, hus]
    simp

/-- Witness for the amended C1, at concrete inputs: `{25}` is rewritten
(25 parses as `u8`), `{256}` is kept (256 does not), `{25:x}` is rewritten
(`usize` path), and a 20-digit index with a trait is kept (it overflows
64-bit `usize`). -/
theorem c1_digits_rewrite_witness :
    parse_internal "\x7b25\x7d" = ("\x7b__25\x7d", [("__25", none)]) ∧
      parse_internal "\x7b256\x7d" = ("\x7b256\x7d", [("256", none)]) ∧
      parse_internal "\x7b25:x\x7d" = ("\x7b__25:x\x7d", [("__25", some "x")]) ∧
      parse_internal "\x7b99999999999999999999:x\x7d" =
        ("\x7b99999999999999999999:x\x7d", [("99999999999999999999", some "x")]) := by
  refine ⟨?_, ?_, ?_, ?_⟩
  · have h := c1_digits_rewrite.1 ['2', '5'] [] (-1) "" [] (by decide) (by decide)
      (by decide)
    rw [parse_internal_eq,
      show ("\x7b25\x7d" : String).data = '{' :: (['2', '5'] ++ '}' :: []) from rfl,
      show initSt = ⟨.top, -1, "", []⟩ from rfl, h]
    decide
  · have h := c1_digits_rewrite.2.1 ['2', '5', '6'] [] (-1) "" [] (by decide) (by decide)
      (by decide)
    rw [parse_internal_eq,
      show ("\x7b256\x7d" : String).data = '{' :: (['2', '5', '6'] ++ '}' :: []) from rfl,
      show initSt = ⟨.top, -1, "", []⟩ from rfl, h]
    decide
  · have h := c1_digits_rewrite.2.2.1 ['2', '5'] ['x'] [] (-1) "" [] (by decide)
      (by decide) (by decide) (by decide) (by decide)
    rw [parse_internal_eq,
      show ("\x7b25:x\x7d" : String).data
        = '{' :: (['2', '5'] ++ ':' :: (['x'] ++ '}' :: [])) from rfl,
      show initSt = ⟨.top, -1, "", []⟩ from rfl, h]
    decide
  · have h := c1_digits_rewrite.2.2.2
      ['9', '9', '9', '9', '9', '9', '9', '9', '9', '9', '9', '9', '9', '9', '9', '9', '9', '9', '9', '9']
      ['x'] [] (-1) "" [] (by decide) (by decide) (by decide) (by decide) (by decide)
    rw [parse_internal_eq,
      show ("\x7b99999999999999999999:x\x7d" : String).data
        = '{' :: (['9', '9', '9', '9', '9', '9', '9', '9', '9', '9', '9', '9', '9', '9', '9', '9', '9', '9', '9', '9'] ++ ':' :: (['x'] ++ '}' :: [])) from rfl,
      show initSt = ⟨.top, -1, "", []⟩ from rfl, h]
    decide

/-- C2, counterexample: the claim says `parse("{1} {} {0}")` rewrites to
`"__1 __0 __2"`.  The code rewrites it to `"{__1} {__0} {__0}"`: the
explicit `{0}` normalizes to `__0`, not to `__2`. -/
theorem c2_counterexample :
    (parse_internal "\x7b1\x7d \x7b\x7d \x7b0\x7d").1
        = "\x7b__1\x7d \x7b__0\x7d \x7b__0\x7d" ∧
      (parse_internal "\x7b1\x7d \x7b\x7d \x7b0\x7d").1 ≠ "__1 __0 __2" ∧
      (parse_internal "\x7b1\x7d \x7b\x7d \x7b0\x7d").1
        ≠ "\x7b__1\x7d \x7b__0\x7d \x7b__2\x7d" := by
  decide

/-- C2, amended: `parse("{1} {} {0}")` yields the rewritten template
`"{__1} {__0} {__0}"` - the lone `{}` gets implicit index 0 and the
explicit indices `{1}` and `{0}` normalize to `__1` and `__0` - and a
later `{}` appended after this sequence receives implicit index 1, not an
index derived from the maximum explicit index seen. -/
theorem c2_rewrite :
    parse_internal "\x7b1\x7d \x7b\x7d \x7b0\x7d" =
      ("\x7b__1\x7d \x7b__0\x7d \x7b__0\x7d", [("__0", none), ("__1", none)]) ∧
    parse_internal "\x7b1\x7d \x7b\x7d \x7b0\x7d \x7b\x7d" =
      ("\x7b__1\x7d \x7b__0\x7d \x7b__0\x7d \x7b__1\x7d",
        [("__0", none), ("__1", none)]) := by
  decide

/-- C3: within one parse the implicit-index counter starts at `-1` (before
0) and is advanced exactly once by each placeholder that supplies no field
(`{}`, and `{:trait}`), assigning `__(i+1)` and moving the counter from `i`
to `i + 1`; a placeholder that carries a nonempty field (a name or an
explicit index, with or without a trait) leaves the counter unchanged.  In
particular `parse("{} {0} {}")` gives the two `{}` the implicit indices 0
and 1, regardless of the explicit `{0}` between them. -/
theorem c3_implicit_counter :
    (∀ (rest : List Char) (i : Int) (o : String) (m : Catalogue),
      scanM ('{' :: '}' :: rest) ⟨.top, i, o, m⟩ =
        scanM rest ⟨.top, i + 1, o ++ "\x7b" ++ ("__" ++ intRepr (i + 1)) ++ "\x7d",
          catInsert m ("__" ++ intRepr (i + 1)) none⟩) ∧
    (∀ (ts rest : List Char) (i : Int) (o : String) (m : Catalogue),
      ts ≠ [] → (∀ c ∈ ts, c ≠ '}') →
        scanM ('{' :: ':' :: (ts ++ '}' :: rest)) ⟨.top, i, o, m⟩ =
          scanM rest ⟨.top, i + 1,
            o ++ "\x7b" ++ ("__" ++ intRepr (i + 1)) ++ ":" ++ ⟨ts⟩ ++ "\x7d",
            catInsert m ("__" ++ intRepr (i + 1)) (some ⟨ts⟩)⟩) ∧
    (∀ (cs rest : List Char) (i : Int) (o : String) (m : Catalogue),
      cs ≠ [] → cs.head? ≠ some '{' → (∀ c ∈ cs, c ≠ ':' ∧ c ≠ '}') →
        scanM ('{' :: (cs ++ '}' :: rest)) ⟨.top, i, o, m⟩ =
          scanM rest ⟨.top, i,
            o ++ "\x7b" ++ (if parsesU8 ⟨cs⟩ then "__" ++ ⟨cs⟩ else ⟨cs⟩) ++ "\x7d",
            catInsert m (if parsesU8 ⟨cs⟩ then "__" ++ ⟨cs⟩ else ⟨cs⟩) none⟩) ∧
    (∀ (cs ts rest : List Char) (i : Int) (o : String) (m : Catalogue),
      cs ≠ [] → cs.head? ≠ some '{' → (∀ c ∈ cs, c ≠ ':' ∧ c ≠ '}') →
      ts ≠ [] → (∀ c ∈ ts, c ≠ '}') →
        scanM ('{' :: (cs ++ ':' :: (ts ++ '}' :: rest))) ⟨.top, i, o, m⟩ =
          scanM rest ⟨.top, i,
            o ++ "\x7b" ++ (if parsesUsize ⟨cs⟩ then "__" ++ ⟨cs⟩ else ⟨cs⟩)
              ++ ":" ++ ⟨ts⟩ ++ "\x7d",
            catInsert m (if parsesUsize ⟨cs⟩ then "__" ++ ⟨cs⟩ else ⟨cs⟩)
              (some ⟨ts⟩)⟩) ∧
    parse_internal "\x7b\x7d \x7b0\x7d \x7b\x7d" =
      ("\x7b__0\x7d \x7b__0\x7d \x7b__1\x7d", [("__0", none), ("__1", none)]) := by
  refine ⟨scan_implicit, ?_, ?_, ?_, by decide⟩
  · intro ts rest i o m h1 h2
    exact scan_implicit_trait ts h1 h2 rest i o m
  · intro cs rest i o m h1 h2 h3
    exact scan_placeholder cs h1 h2 h3 rest i o m
  · intro cs ts rest i o m h1 h2 h3 ht1 ht2
    exact scan_placeholder_trait cs ts h1 h2 h3 ht1 ht2 rest i o m

/-- Witness for C3 at concrete inputs: `{:x}` consumes implicit index 0;
`{a}` and `{a:x}` leave the counter untouched, so a following `{}` still
gets index 0. -/
theorem c3_implicit_counter_witness :
    parse_internal "\x7b:x\x7d" = ("\x7b__0:x\x7d", [("__0", some "x")]) ∧
      parse_internal "\x7ba\x7d\x7b\x7d" = ("\x7ba\x7d\x7b__0\x7d",
        [("__0", none), ("a", none)]) ∧
      parse_internal "\x7ba:x\x7d\x7b\x7d" = ("\x7ba:x\x7d\x7b__0\x7d",
        [("__0", none), ("a", some "x")]) := by
  refine ⟨?_, ?_, ?_⟩
  · have h := c3_implicit_counter.2.1 ['x'] [] (-1) "" [] (by decide) (by decide)
    rw [parse_internal_eq,
      show ("\x7b:x\x7d" : String).data = '{' :: ':' :: (['x'] ++ '}' :: []) from rfl,
      show initSt = ⟨.top, -1, "", []⟩ from rfl, h]
    decide
  · have h := c3_implicit_counter.2.2.1 ['a'] ('{' :: '}' :: []) (-1) "" []
      (by decide) (by decide) (by decide)
    rw [parse_internal_eq,
      show ("\x7ba\x7d\x7b\x7d" : String).data
        = '{' :: (['a'] ++ '}' :: ('{' :: '}' :: [])) from rfl,
      show initSt = ⟨.top, -1, "", []⟩ from rfl, h]
    decide
  · have h := c3_implicit_counter.2.2.2.1 ['a'] ['x'] ('{' :: '}' :: []) (-1) "" []
      (by decide) (by decide) (by decide) (by decide) (by decide)
    rw [parse_internal_eq,
      show ("\x7ba:x\x7d\x7b\x7d" : String).data
        = '{' :: (['a'] ++ ':' :: (['x'] ++ '}' :: ('{' :: '}' :: []))) from rfl,
      show initSt = ⟨.top, -1, "", []⟩ from rfl, h]
    decide

/-- C4: parse is total and deterministic - it is a plain function defined
for every input string (including strings with unmatched or unterminated
braces, which still produce a definite output pair), and equal inputs give
equal outputs. -/
theorem c4_total :
    (∀ s t : String, s = t → parse_internal s = parse_internal t) ∧
      parse_internal "\x7bunclosed" = ("", []) ∧
      parse_internal "a\x7db\x7b" = ("a\x7db", []) := by
  refine ⟨?_, by decide, by decide⟩
  intro s t h
  rw [h]

/-- Witness for C4 at a concrete input. -/
theorem c4_total_witness : parse_internal "x\x7by" = parse_internal "x\x7by" :=
  c4_total.1 "x\x7by" "x\x7by" rfl

/-- C5: a non-escape `{` whose placeholder never sees a matching `}` before
the end of input makes the scanner silently drop the rest: if scanning the
prefix `p` ends at top level, the `{` is not doubled, and the remainder `r`
contains no `}`, then parsing `p ++ "{" ++ r` returns exactly the output and
catalogue of parsing `p` alone. -/
theorem c5_unterminated (p r : String)
    (hp : (scanM p.data initSt).mode = .top)
    (h1 : r.data.head? ≠ some '{') (h2 : '}' ∉ r.data) :
    parse_internal (p ++ "\x7b" ++ r) = parse_internal p := by
  rw [parse_internal_eq, parse_internal_eq]
  have hd : (p ++ "\x7b" ++ r).data = p.data ++ ('{' :: r.data) := by
    simp [String.data_append]
  rw [hd, scanM_append]
  generalize scanM p.data initSt = st at hp ⊢
  obtain ⟨md, i, o, m⟩ := st
  cases md with
  | top =>
    obtain ⟨ha, hb⟩ := scan_unterminated r.data h1 h2 i o m
    rw [ha, hb]
  | sawBrace => simp at hp
  | inField f tr => simp at hp
  | inTrait f tr => simp at hp

/-- Witness for C5 at a concrete input: the unterminated `{cd` is dropped
and `"ab{cd"` parses exactly like `"ab"`. -/
theorem c5_unterminated_witness :
    parse_internal ("ab" ++ "\x7b" ++ "cd") = parse_internal "ab" ∧
      parse_internal "ab" = ("ab", []) :=
  ⟨c5_unterminated "ab" "cd" (by decide) (by decide) (by decide), by decide⟩

/-- C6: parse is idempotent on its own output - for every template, running
parse on the rewritten template it produced returns that same rewritten
template together with the same catalogue. -/
theorem c6_idempotent (s : String) :
    parse_internal (parse_internal s).1 = parse_internal s := by
  obtain ⟨hr, -⟩ := replay_scan s.data initSt ⟨rfl, trivial⟩
  show parse_internal (scanM s.data initSt).out = _
  rw [parse_internal_eq, hr]
  rfl

/-- C7: the catalogue has at most one entry per normalized key (its keys
are pairwise distinct for every input), and when the same key occurs with
different trait annotations the surviving annotation is chosen by the
uniform last-occurrence policy of `BTreeMap::insert`, pinned by the
concrete case `{0:x} {0:#x}`. -/
theorem c7_dedup :
    (∀ s : String, ((parse_internal s).2.map Prod.fst).Nodup) ∧
      parse_internal "\x7b0:x\x7d \x7b0:#x\x7d" =
        ("\x7b__0:x\x7d \x7b__0:#x\x7d", [("__0", some "#x")]) := by
  refine ⟨?_, by decide⟩
  intro s
  exact sorted_keys_nodup (scan_sorted s.data initSt List.Pairwise.nil)

/-- C8: trait annotations are captured verbatim after the colon and are
excluded from the normalized key: `{x:?}` keeps `{x:?}` with catalogue
entry `x`/`?`, `{:#x}` rewrites to `{__0:#x}` with entry `__0`/`#x`, and in
general any `}`-free trait text after `{x:` is copied unchanged into the
output and the catalogue, never interpreted. -/
theorem c8_traits :
    parse_internal "\x7bx:?\x7d" = ("\x7bx:?\x7d", [("x", some "?")]) ∧
      parse_internal "\x7b:#x\x7d" = ("\x7b__0:#x\x7d", [("__0", some "#x")]) ∧
      (∀ (ts rest : List Char) (i : Int) (o : String) (m : Catalogue),
        ts ≠ [] → (∀ c ∈ ts, c ≠ '}') →
          scanM ('{' :: 'x' :: ':' :: (ts ++ '}' :: rest)) ⟨.top, i, o, m⟩ =
            scanM rest ⟨.top, i, o ++ "\x7bx:" ++ ⟨ts⟩ ++ "\x7d",
              catInsert m "x" (some ⟨ts⟩)⟩) := by
  refine ⟨by decide, by decide, ?_⟩
  intro ts rest i o m h1 h2
  have h := scan_placeholder_trait ['x'] ts (by decide) (by decide) (by decide) h1 h2
    rest i o m
  rw [show ('{' :: 'x' :: ':' :: (ts ++ '}' :: rest))
      = '{' :: (['x'] ++ ':' :: (ts ++ '}' :: rest)) from rfl, h]
  have hif : (if parsesUsize (⟨['x']⟩ : String) = true
      then "__" ++ (⟨['x']⟩ : String) else (⟨['x']⟩ : String)) = "x" := by decide
  rw [hif]
  apply congrArg (scanM rest)
  apply st_eq_of_out_data
  simp [String.data_append, data_mk]

/-- Witness for C8's general conjunct at a concrete trait text. -/
theorem c8_traits_witness :
    parse_internal "\x7bx:!!\x7d" = ("\x7bx:!!\x7d", [("x", some "!!")]) := by
  have h := c8_traits.2.2 ['!', '!'] [] (-1) "" [] (by decide) (by decide)
  rw [parse_internal_eq,
    show ("\x7bx:!!\x7d" : String).data
      = '{' :: 'x' :: ':' :: (['!', '!'] ++ '}' :: []) from rfl,
    show initSt = ⟨.top, -1, "", []⟩ from rfl, h]
  decide

/-- C9: escaped braces round-trip - `parse("{{")` and `parse("}}")` keep
the two-character escape sequence in the output and add no catalogue entry,
and in general a `{{` or `}}` seen at top level only appends the two
characters, leaving the counter and the catalogue untouched. -/
theorem c9_escape :
    parse_internal "\x7b\x7b" = ("\x7b\x7b", []) ∧
      parse_internal "\x7d\x7d" = ("\x7d\x7d", []) ∧
      (∀ (rest : List Char) (i : Int) (o : String) (m : Catalogue),
        scanM ('{' :: '{' :: rest) ⟨.top, i, o, m⟩ =
          scanM rest ⟨.top, i, o ++ "\x7b\x7b", m⟩) ∧
      (∀ (rest : List Char) (i : Int) (o : String) (m : Catalogue),
        scanM ('}' :: '}' :: rest) ⟨.top, i, o, m⟩ =
          scanM rest ⟨.top, i, (o.push '}').push '}', m⟩) := by
  refine ⟨by decide, by decide, ?_, ?_⟩
  · intro rest i o m
    rw [scanM_cons, step_top_brace, scanM_cons, step_saw_brace]
  · intro rest i o m
    rw [scanM_cons, step_top_lit (show ('}' : Char) ≠ '{' by decide), scanM_cons,
      step_top_lit (show ('}' : Char) ≠ '{' by decide)]

/-- C10: a placeholder whose colon is immediately followed by the closing
brace, such as `{name:}`, is normalized with the colon dropped: the output
contains `{name}` and the catalogue stores the key with an absent trait
(`none`), not an empty-string trait. -/
theorem c10_colon_dropped :
    parse_internal "\x7bname:\x7d" = ("\x7bname\x7d", [("name", none)]) ∧
      (∀ (rest : List Char) (i : Int) (o : String) (m : Catalogue),
        scanM ('{' :: 'n' :: 'a' :: 'm' :: 'e' :: ':' :: '}' :: rest) ⟨.top, i, o, m⟩ =
          scanM rest ⟨.top, i, o ++ "\x7bname\x7d", catInsert m "name" none⟩) := by
  refine ⟨by decide, ?_⟩
  intro rest i o m
  rw [scanM_cons, step_top_brace, scanM_cons,
    step_saw_other (show ('n' : Char) ≠ '{' by decide)
      (show ('n' : Char) ≠ ':' by decide) (show ('n' : Char) ≠ '}' by decide),
    scanM_cons,
    step_field_push (show ('a' : Char) ≠ ':' by decide)
      (show ('a' : Char) ≠ '}' by decide),
    scanM_cons,
    step_field_push (show ('m' : Char) ≠ ':' by decide)
      (show ('m' : Char) ≠ '}' by decide),
    scanM_cons,
    step_field_push (show ('e' : Char) ≠ ':' by decide)
      (show ('e' : Char) ≠ '}' by decide)]
  rw [show ((((⟨['n']⟩ : String).push 'a').push 'm').push 'e') = "name" by decide]
  rw [scanM_cons, step_field_colon,
    colonPh_nonempty ⟨.inField "name" none, i, o, m⟩
      (show ("name" : String) ≠ "" by decide)
      (show parsesUsize "name" = false by decide) none,
    scanM_cons, step_trait_close,
    closePh_nonempty ⟨.inTrait "name" none, i, o, m⟩
      (show ("name" : String) ≠ "" by decide)
      (show parsesU8 "name" = false by decide) none]
  apply congrArg (scanM rest)
  apply st_eq_of_out_data
  simp [String.data_append, trSuffix]
